import Mathlib

/-!
# Verification of the stroke-geometry core of the drawing app

A shallow embedding of the geometry and canvas code of the repository
(`src/src/utility.rs`, `src/src/main.rs`, `src/src/command.rs`) into Lean 4,
together with proofs and refutations of the specification's claims.

Modelling conventions:

* `f32` scalars are modelled as real numbers (`ℝ`); float rounding is
  idealised away, which is the standard idealisation for geometric code.
  All comparisons the code performs on floats are modelled as the
  corresponding real comparisons (classical decidability is used for `if`).
* A floating-point NaN produced by normalising a zero-length vector is
  modelled by `Option`: a vertex position is `none` exactly when the IEEE
  computation would have produced NaN components (0/0 inside `normalize`,
  then propagated through every later arithmetic operation).
* Rust `Vec` index truncation `as u16` is modelled by `% 65536` on `ℕ`,
  and wrapping `u16` addition likewise.
* The two recursions of the source that are not structurally terminating
  (`ramer_douglas_peucker`'s self-call on `points[index..]`, and the
  chunking `while` loop of `stroke_to_world_submeshes`) are modelled with
  explicit fuel returning `Option`; `none` means the source would not have
  returned (unbounded recursion / infinite loop).  Lemmas below show the
  chosen fuel suffices on the inputs where the source terminates.
-/

open Classical

noncomputable section

/-- 2-D float vector (`macroquad::math::Vec2`), modelled over `ℝ`. -/
abbrev Vec2 : Type := ℝ × ℝ

/-- A stroke sample: `(Vec2, f32)` = (position, radius/pressure). -/
abbrev Pt : Type := Vec2 × ℝ

/-- Vector addition. -/
def vadd (a b : Vec2) : Vec2 := (a.1 + b.1, a.2 + b.2)

/-- Vector subtraction. -/
def vsub (a b : Vec2) : Vec2 := (a.1 - b.1, a.2 - b.2)

/-- Scalar multiplication `v * c`. -/
def smul (v : Vec2) (c : ℝ) : Vec2 := (v.1 * c, v.2 * c)

/-- Dot product. -/
def vdot (a b : Vec2) : ℝ := a.1 * b.1 + a.2 * b.2

/-- Euclidean length (`Vec2::length`). -/
def vlength (v : Vec2) : ℝ := Real.sqrt (v.1 ^ 2 + v.2 ^ 2)

/-- Distance between two points (`Vec2::distance`). -/
def vdist (a b : Vec2) : ℝ := vlength (vsub a b)

/-- 90° rotation used by the tessellator: `vec2(-dir.y, dir.x)`. -/
def vperp (v : Vec2) : Vec2 := (-v.2, v.1)

/-- `Vec2::normalize`.  IEEE: a zero-length vector yields `0/0 = NaN` in
both components; this is modelled by `none`.  A nonzero vector yields the
exact unit vector. -/
def vnormalize (v : Vec2) : Option Vec2 :=
  if vlength v = 0 then none
  else some (smul v (1 / vlength v))

/-- `utility.rs::perpendicular_distance`: distance from `p` to the segment
chord through `a`, `b` (with the explicit zero-chord guard of the source). -/
def perpendicular_distance (p a b : Vec2) : ℝ :=
  let ap := vsub p a
  let ab := vsub b a
  let ab_length := vlength ab
  if ab_length = 0 then vlength ap
  else
    let proj := vdot ap ab / (ab_length * ab_length)
    let closest := vadd a (smul ab proj)
    vlength (vsub p closest)

/-- The interior scan of `ramer_douglas_peucker`: fold over the interior
indices `1 .. len-2` (the source's `.enumerate().skip(1).take(len-2)`),
tracking `(max_dist, index)` starting from `(0.0, 0)` and updating on a
strict `dist > max_dist`. -/
def rdpScan (points : List Pt) : ℝ × ℕ :=
  (List.range' 1 (points.length - 2)).foldl
    (fun acc i =>
      let d := perpendicular_distance (points.getD i default).1
        (points.headI.1) ((points.getLastD default).1)
      if acc.1 < d then (d, i) else acc)
    (0, 0)

/-- Fuel-indexed `utility.rs::ramer_douglas_peucker`.  The source recurses
on `points[..=index]` and `points[index..]`; when `index = 0` (possible only
for `epsilon < 0`) the second slice is the whole input and the recursion
does not terminate, hence the fuel.  `none` models that divergence. -/
def rdpF : ℕ → List Pt → ℝ → Option (List Pt)
  | 0, _, _ => none
  | fuel + 1, points, epsilon =>
    if points.length < 3 then some points
    else
      if epsilon < (rdpScan points).1 then
        match rdpF fuel (points.take ((rdpScan points).2 + 1)) epsilon,
              rdpF fuel (points.drop (rdpScan points).2) epsilon with
        | some left, some right => some (left.dropLast ++ right)
        | _, _ => none
      else some [points.headI, points.getLastD default]

/-- `ramer_douglas_peucker` run with fuel `length + 1`, which suffices
whenever the source terminates (see `rdpF_total_of_nonneg`). -/
def ramer_douglas_peucker (points : List Pt) (epsilon : ℝ) : Option (List Pt) :=
  rdpF (points.length + 1) points epsilon

/-- `utility.rs::interpolate_pressure`: cubic Catmull-Rom basis on the
radius channel. -/
def interpolate_pressure (r0 r1 r2 r3 t : ℝ) : ℝ :=
  let t2 := t * t
  let t3 := t2 * t
  0.5 * ((2 * r1) + (-r0 + r2) * t + (2 * r0 - 5 * r1 + 4 * r2 - r3) * t2 +
    (-r0 + 3 * r1 - 3 * r2 + r3) * t3)

/-- One evaluated Catmull-Rom sample of window `(p0,r0) .. (p3,r3)` at
parameter `t` (the body of the inner `for s in 0..segments` loop). -/
def catmullSample (q0 q1 q2 q3 : Pt) (t : ℝ) : Pt :=
  let p0 := q0.1; let p1 := q1.1; let p2 := q2.1; let p3 := q3.1
  let t2 := t * t
  let t3 := t2 * t
  let px := 0.5 * ((2 * p1.1) + (-p0.1 + p2.1) * t +
    (2 * p0.1 - 5 * p1.1 + 4 * p2.1 - p3.1) * t2 +
    (-p0.1 + 3 * p1.1 - 3 * p2.1 + p3.1) * t3)
  let py := 0.5 * ((2 * p1.2) + (-p0.2 + p2.2) * t +
    (2 * p0.2 - 5 * p1.2 + 4 * p2.2 - p3.2) * t2 +
    (-p0.2 + 3 * p1.2 - 3 * p2.2 + p3.2) * t3)
  ((px, py), interpolate_pressure q0.2 q1.2 q2.2 q3.2 t)

/-- `utility.rs::catmull_rom_spline`.  The source pads the input with a
duplicated first and last point (`extended`), loops `i` over
`1 .. extended.len()-2` emitting `segments` samples per window, and appends
the original last point once. -/
def catmull_rom_spline (points : List Pt) (segments : ℕ) : List Pt :=
  if points.length < 4 then points
  else
    let extended := points.headI :: (points ++ [points.getLastD default])
    -- the source's loop variable is `i = k + 1`
    let core := (List.range (extended.length - 3)).flatMap (fun k =>
      (List.range segments).map (fun (s : ℕ) =>
        catmullSample (extended.getD k default) (extended.getD (k + 1) default)
          (extended.getD (k + 2) default) (extended.getD (k + 3) default)
          ((s : ℝ) / (segments : ℝ))))
    core ++ [points.getLastD default]

/-! ## Tessellator (`src/src/main.rs`): ribbon + caps + chunking

Vertex positions are `Option (ℝ × ℝ × ℝ)`: `none` models a position holding
IEEE NaN components (produced by normalising a zero-length direction and
propagated by every subsequent arithmetic operation). -/

/-- `macroquad::ui::Vertex`, with NaN-aware position. -/
structure Vertex where
  position : Option (ℝ × ℝ × ℝ)
  uv : Vec2
  color : ℕ × ℕ × ℕ × ℕ
  normal : ℝ × ℝ × ℝ × ℝ

instance : Inhabited Vertex := ⟨⟨none, (0, 0), (0, 0, 0, 0), (0, 0, 0, 0)⟩⟩

/-- `macroquad::models::Mesh`: vertex buffer, `u16` index buffer (indices
stored as naturals `< 65536`), optional texture. -/
structure Mesh where
  vertices : List Vertex
  indices : List ℕ
  texture : Option Unit

/-- Rust float-to-`u8` `as` cast (saturating truncation), for `color_u8`. -/
def u8cast (x : ℝ) : ℕ := (min 255 (max 0 ⌊x⌋)).toNat

/-- `utility.rs::color_u8`. -/
def color_u8 (r g b a : ℝ) : ℕ × ℕ × ℕ × ℕ :=
  (u8cast (r * 255), u8cast (g * 255), u8cast (b * 255), u8cast (a * 255))

/-- Two-argument arctangent (the `atan2` underlying
`Vec2::angle_between`), via the complex argument. -/
def atan2 (y x : ℝ) : ℝ := Complex.arg (x + y * Complex.I)

/-- `glam::Vec2::angle_between`: signed angle from `self` to `rhs` in
`[-π, π]`, `perp_dot(rhs).atan2(dot(rhs))`. -/
def angle_between (a b : Vec2) : ℝ := atan2 (a.1 * b.2 - a.2 * b.1) (vdot a b)

/-- Strict `<` on possibly-NaN floats: any comparison involving NaN is
false (IEEE). -/
def oLt (a b : Option ℝ) : Prop := ∃ x y, a = some x ∧ b = some y ∧ x < y

/-- NaN-propagating unary operation. -/
def omap (f : ℝ → ℝ) : Option ℝ → Option ℝ := Option.map f

/-- NaN-propagating binary operation. -/
def omap₂ (f : ℝ → ℝ → ℝ) : Option ℝ → Option ℝ → Option ℝ := Option.map₂ f

/-- `main.rs::CAP_SEGMENTS`. -/
def CAP_SEGMENTS : ℕ := 8

/-- The cap fan vertices pushed by `draw_cap`: the center, then the
`CAP_SEGMENTS + 1` arc samples (`for j in 0..=CAP_SEGMENTS`). -/
def capVertexList (center : Option Vec2) (cap_radius a0 a1 : Option ℝ)
    (c : ℕ × ℕ × ℕ × ℕ) (nrm : ℝ × ℝ × ℝ × ℝ) : List Vertex :=
  ⟨center.map (fun p => (p.1, p.2, 0)), (0, 0), c, nrm⟩ ::
  (List.range (CAP_SEGMENTS + 1)).map (fun (j : ℕ) =>
    let t : ℝ := (j : ℝ) / (CAP_SEGMENTS : ℝ)
    let pos : Option (ℝ × ℝ × ℝ) :=
      match center, cap_radius, a0, a1 with
      | some ctr, some r, some x0, some x1 =>
        let angle := x0 + t * (x1 - x0)
        some (ctr.1 + Real.cos angle * r, ctr.2 + Real.sin angle * r, 0)
      | _, _, _, _ => none
    ⟨pos, (0, 0), c, nrm⟩)

/-- `main.rs::draw_cap`: appends the half-disk cap fan (center vertex plus
`CAP_SEGMENTS + 1` rim vertices, `CAP_SEGMENTS` triangles) to the given
vertex and index buffers.  The angle normalisation mirrors the source's
branch structure; `u16` index arithmetic wraps mod 65536. -/
def draw_cap (vertices : List Vertex) (indices : List ℕ)
    (start_left start_right : Option Vec2)
    (c : ℕ × ℕ × ℕ × ℕ) (nrm : ℝ × ℝ × ℝ × ℝ) : List Vertex × List ℕ :=
  let center := Option.map₂ (fun a b => smul (vadd a b) 0.5) start_left start_right
  let cap_radius := Option.map₂ (fun a b => vdist a b * 0.5) start_left start_right
  let angle_left := Option.map₂ (fun l ctr => angle_between (vsub l ctr) (1, 0))
    start_left center
  let angle_right := Option.map₂ (fun r ctr => angle_between (vsub r ctr) (1, 0))
    start_right center
  let a0 := angle_left
  let a1 := if oLt angle_right a0 then omap (· + 2 * Real.pi) angle_right
            else angle_right
  let arc := omap₂ (fun x y => x - y) a1 a0
  let angles :=
    if oLt (some Real.pi) arc then
      let b0 := a1
      let b1 := omap (· + 2 * Real.pi) a0
      let arc2 := omap₂ (fun x y => x - y) b1 b0
      if oLt (some Real.pi) arc2 then (b0, omap (· + Real.pi) b0) else (b0, b1)
    else (a0, omap (· + Real.pi) a0)
  let first_cap_index := vertices.length % 65536
  let capIdx := (List.range CAP_SEGMENTS).flatMap (fun j =>
    [first_cap_index, (first_cap_index + 1 + j) % 65536,
     (first_cap_index + 2 + j) % 65536])
  (vertices ++ capVertexList center cap_radius angles.1 angles.2 c nrm,
   indices ++ capIdx)

/-- The per-point forward tangents of `build_stroke_mesh_chunk` (the
`directions` vector): direction to the next point, and for the last point
direction from the previous one.  Unguarded `normalize`: `none` (NaN) when
the two points coincide. -/
def strokeDirections (points : List Pt) : List (Option Vec2) :=
  (List.range points.length).map (fun i =>
    if i = points.length - 1 then
      vnormalize (vsub (points.getD i default).1 (points.getD (i - 1) default).1)
    else
      vnormalize (vsub (points.getD (i + 1) default).1 (points.getD i default).1))

/-- The rail vertices of `build_stroke_mesh_chunk`: two per point, at
`pos ± perp * radius` (left on even, right on odd positions). -/
def railVertices (points : List Pt) (c : ℕ × ℕ × ℕ × ℕ)
    (nrm : ℝ × ℝ × ℝ × ℝ) : List Vertex :=
  let dirs := strokeDirections points
  (List.range points.length).flatMap (fun i =>
    let pos := (points.getD i default).1
    let radius := (points.getD i default).2
    let dir := dirs.getD i none
    let left_pos := dir.map (fun d => vadd pos (smul (vperp d) radius))
    let right_pos := dir.map (fun d => vsub pos (smul (vperp d) radius))
    [⟨left_pos.map (fun p => (p.1, p.2, 0)), (0, 0), c, nrm⟩,
     ⟨right_pos.map (fun p => (p.1, p.2, 0)), (0, 0), c, nrm⟩])

/-- The ribbon indices of `build_stroke_mesh_chunk`: two triangles per
segment with the fixed winding `(i0,i1,i2),(i2,i1,i3)`; `as u16` casts
truncate mod 65536. -/
def segmentIndices (n : ℕ) : List ℕ :=
  (List.range (n - 1)).flatMap (fun i =>
    [(2 * i) % 65536, (2 * i + 1) % 65536, (2 * (i + 1)) % 65536,
     (2 * (i + 1)) % 65536, (2 * i + 1) % 65536, (2 * (i + 1) + 1) % 65536])

/-- `position.truncate()` of a stored vertex: its 2-D position (NaN-aware). -/
def truncPos (v : Vertex) : Option Vec2 := v.position.map (fun p => (p.1, p.2.1))

/-- `main.rs::build_stroke_mesh_chunk`: empty mesh for fewer than 2 points,
otherwise rails + segment triangles, then the optional start cap (reading
vertices 0 and 1) and optional end cap (reading vertices `2(n-1)` and
`2(n-1)+1`). -/
def build_stroke_mesh_chunk (points : List Pt)
    (draw_start_cap draw_end_cap : Bool) : Mesh :=
  if points.length < 2 then ⟨[], [], none⟩
  else
    let n := points.length
    let c := color_u8 0 0 0 1
    let nrm : ℝ × ℝ × ℝ × ℝ := (0, 0, 1, 0)
    let vs0 := railVertices points c nrm
    let is0 := segmentIndices n
    let p1 := if draw_start_cap then
        draw_cap vs0 is0 (truncPos (vs0.getD 0 default)) (truncPos (vs0.getD 1 default)) c nrm
      else (vs0, is0)
    let p2 := if draw_end_cap then
        draw_cap p1.1 p1.2 (truncPos (p1.1.getD (2 * (n - 1)) default))
          (truncPos (p1.1.getD (2 * (n - 1) + 1) default)) c nrm
      else p1
    ⟨p2.1, p2.2, none⟩

/-! ## Chunking loop of `stroke_to_world_submeshes` -/

/-- The chunk end index of one iteration of the `while` loop: the source's
`end` after the `if !is_last_chunk { end += 1 }` adjustment. -/
def chunkEnd (n mcp start : ℕ) : ℕ :=
  let e0 := min (start + mcp) (n - 1)
  if e0 = n - 1 then e0 else e0 + 1

/-- The next value of `start` after one iteration of the `while` loop:
`end - 1` for a non-final chunk, `end + 1` after the final chunk. -/
def chunkNextStart (n mcp start : ℕ) : ℕ :=
  let e0 := min (start + mcp) (n - 1)
  if e0 = n - 1 then (chunkEnd n mcp start) + 1 else (chunkEnd n mcp start) - 1

/-- Fuel-indexed rendering of the chunking `while start < n` loop of
`main.rs::stroke_to_world_submeshes`.  Each iteration records the argument
triple handed to `build_stroke_mesh_chunk`: the point window
`points[start..=end]`, `draw_start_cap = (start == 0)` and
`draw_end_cap = (end == n-1)`.  `none` models a loop that did not
terminate within the given fuel. -/
def chunkLoop (points : List Pt) (mcp : ℕ) :
    ℕ → ℕ → Option (List (List Pt × Bool × Bool))
  | 0, _ => none
  | fuel + 1, start =>
    if start < points.length then
      let n := points.length
      let e := chunkEnd n mcp start
      let sub := (points.drop start).take (e + 1 - start)
      match chunkLoop points mcp fuel (chunkNextStart n mcp start) with
      | some rest => some ((sub, decide (start = 0), decide (e = n - 1)) :: rest)
      | none => none
    else some []

/-- `main.rs::stroke_to_world_submeshes`: early `Vec::new()` for fewer than
2 points, otherwise one mesh per chunk produced by the loop (fuel
`length + 1`, sufficient whenever `max_chunk_points ≥ 1`, see
`chunkLoop_total`). -/
def stroke_to_world_submeshes (points : List Pt) (max_chunk_points : ℕ) :
    Option (List Mesh) :=
  if points.length < 2 then some []
  else
    (chunkLoop points max_chunk_points (points.length + 1) 0).map
      (List.map (fun a => build_stroke_mesh_chunk a.1 a.2.1 a.2.2))

/-! ## Command stack and canvas (`src/src/command.rs`, `src/src/main.rs`)

A `Stroke` is its point list (`struct Stroke { points: Vec<(Vec2,f32)> }`,
with `PartialEq` comparing the point lists structurally).  Stacks are
modelled with the list head as the stack top (a Rust `Vec`'s last
element).  Canvas fields not touched by the modelled operations (view
offset, stylus/input state, tool mode) are omitted. -/

/-- A stroke: its ordered point list; equality is structural. -/
abbrev Stroke : Type := List Pt

/-- `command.rs::Command`. -/
inductive Command where
  | AddStroke (s : Stroke)
  | RemoveStroke (s : Stroke)

/-- `command.rs::CommandStack`. -/
structure CommandStack where
  undo_stack : List Command
  redo_stack : List Command

/-- `CommandStack::new`. -/
def CommandStack.new : CommandStack := ⟨[], []⟩

/-- `CommandStack::push_undo`. -/
def pushUndo (st : CommandStack) (comm : Command) : CommandStack :=
  ⟨comm :: st.undo_stack, st.redo_stack⟩

/-- `CommandStack::push_redo`. -/
def pushRedo (st : CommandStack) (comm : Command) : CommandStack :=
  ⟨st.undo_stack, comm :: st.redo_stack⟩

/-- `CommandStack::pop_undo`: the popped command (if any) and the stack
after the pop. -/
def popUndo (st : CommandStack) : Option Command × CommandStack :=
  (st.undo_stack.head?, ⟨st.undo_stack.tail, st.redo_stack⟩)

/-- `CommandStack::pop_redo`. -/
def popRedo (st : CommandStack) : Option Command × CommandStack :=
  (st.redo_stack.head?, ⟨st.undo_stack, st.redo_stack.tail⟩)

/-- `main.rs::InfiniteCanvas` (geometry-relevant fields). -/
structure InfiniteCanvas where
  strokes : List Stroke
  stroke_cache : List (Option (List Mesh))
  current_stroke : Option Stroke
  command_stack : CommandStack
  zoom : ℝ

/-- `InfiniteCanvas::new` (geometry-relevant fields). -/
def InfiniteCanvas.new : InfiniteCanvas :=
  ⟨[], [], none, CommandStack.new, 1⟩

/-- `utility.rs::stroke_intersect`: some sample of the stroke lies within
`radius` of `pos`. -/
def stroke_intersect (s : Stroke) (pos : Vec2) (radius : ℝ) : Prop :=
  ∃ p ∈ s, vdist p.1 pos ≤ radius

/-- The finalize pipeline applied to the in-progress stroke:
`simplify(0.5)` (RDP, which terminates for this nonnegative epsilon, see
`rdpF_total_of_nonneg`; `getD` is never reached) then
`catmull_rom_spline(_, 10)`. -/
def processStroke (s : Stroke) : Stroke :=
  catmull_rom_spline ((ramer_douglas_peucker s 0.5).getD s) 10

/-- The stroke-insertion steps of `finalize_stroke`
(`main.rs` lines 149-151): push `AddStroke` onto the undo stack, append
the stroke to the live list, append a fresh empty cache slot. -/
def addStrokeSteps (c : InfiniteCanvas) (stroke : Stroke) : InfiniteCanvas :=
  { c with
    command_stack := pushUndo c.command_stack (Command.AddStroke stroke),
    strokes := c.strokes ++ [stroke],
    stroke_cache := c.stroke_cache ++ [none] }

/-- `InfiniteCanvas::finalize_stroke`: take the in-progress stroke (if
any), simplify and smooth it, then perform the insertion steps. -/
def finalize_stroke (c : InfiniteCanvas) : InfiniteCanvas :=
  match c.current_stroke with
  | none => c
  | some stroke0 =>
    addStrokeSteps { c with current_stroke := none } (processStroke stroke0)

/-- The `while i < strokes.len()` loop of `erase_stroke_at`, walking the
stroke list and its cache slots in lockstep: an intersecting stroke is
removed together with its cache slot (at the same index) and a
`RemoveStroke` command is pushed; otherwise the index advances.  The
branch with a missing cache slot is unreachable while the cache is
aligned (the source would panic there on `Vec::remove`). -/
def eraseLoop (pos : Vec2) (radius : ℝ) :
    List Stroke → List (Option (List Mesh)) → CommandStack →
    List Stroke × List (Option (List Mesh)) × CommandStack
  | [], cache, st => ([], cache, st)
  | s :: rest, slot :: cacheRest, st =>
    if stroke_intersect s pos radius then
      eraseLoop pos radius rest cacheRest
        (pushUndo st (Command.RemoveStroke s))
    else
      let r := eraseLoop pos radius rest cacheRest st
      (s :: r.1, slot :: r.2.1, r.2.2)
  | s :: rest, [], st => (s :: rest, [], st)

/-- `InfiniteCanvas::erase_stroke_at` (eraser radius `10 * (1/zoom)`). -/
def erase_stroke_at (c : InfiniteCanvas) (pos : Vec2) : InfiniteCanvas :=
  let radius := 10 * (1 / c.zoom)
  let r := eraseLoop pos radius c.strokes c.stroke_cache c.command_stack
  { c with strokes := r.1, stroke_cache := r.2.1, command_stack := r.2.2 }

/-- `Vec::iter().position(|s| *s == stroke)`: index of the first stroke
structurally equal to `stroke`. -/
def findStroke (strokes : List Stroke) (stroke : Stroke) : Option ℕ :=
  strokes.findIdx? (fun s => decide (s = stroke))

/-- `InfiniteCanvas::undo`: pop the undo stack; for `AddStroke`, locate the
stroke by structural equality and remove it and its cache slot at the same
index (silently dropping the command when no match exists); for
`RemoveStroke`, re-append the stroke with a fresh empty cache slot.  The
handled command is pushed onto the redo stack. -/
def undo (c : InfiniteCanvas) : InfiniteCanvas :=
  match popUndo c.command_stack with
  | (none, _) => c
  | (some comm, st') =>
    match comm with
    | Command.AddStroke stroke =>
      match findStroke c.strokes stroke with
      | some idx =>
        { c with
          strokes := c.strokes.eraseIdx idx,
          stroke_cache := c.stroke_cache.eraseIdx idx,
          command_stack := pushRedo st' (Command.AddStroke stroke) }
      | none => { c with command_stack := st' }
    | Command.RemoveStroke stroke =>
      { c with
        strokes := c.strokes ++ [stroke],
        stroke_cache := c.stroke_cache ++ [none],
        command_stack := pushRedo st' (Command.RemoveStroke stroke) }

/-- `InfiniteCanvas::redo`: pop the redo stack and replay the command's
forward effect, pushing it back onto the undo stack. -/
def redo (c : InfiniteCanvas) : InfiniteCanvas :=
  match popRedo c.command_stack with
  | (none, _) => c
  | (some comm, st') =>
    match comm with
    | Command.AddStroke stroke =>
      { c with
        strokes := c.strokes ++ [stroke],
        stroke_cache := c.stroke_cache ++ [none],
        command_stack := pushUndo st' (Command.AddStroke stroke) }
    | Command.RemoveStroke stroke =>
      match findStroke c.strokes stroke with
      | some idx =>
        { c with
          strokes := c.strokes.eraseIdx idx,
          stroke_cache := c.stroke_cache.eraseIdx idx,
          command_stack := pushUndo st' (Command.RemoveStroke stroke) }
      | none => { c with command_stack := st' }

/-! ## Helper lemmas -/

/-- A `flatMap` over `range m` whose every block has `k` elements has
`m * k` elements. -/
theorem length_flatMap_const {α : Type} (m k : ℕ) (f : ℕ → List α)
    (h : ∀ i, (f i).length = k) :
    ((List.range m).flatMap f).length = m * k := by
  induction m with
  | zero => simp
  | succ m ih =>
    rw [List.range_succ, List.flatMap_append]
    simp [ih, h, Nat.succ_mul]

/-- Fuel `n - start + 1` suffices for the chunking loop when
`max_chunk_points ≥ 1`: `start` strictly increases at every iteration. -/
theorem chunkLoop_total (points : List Pt) (mcp : ℕ) (hm : 1 ≤ mcp) :
    ∀ fuel start, points.length - start + 1 ≤ fuel →
      (chunkLoop points mcp fuel start).isSome := by
  intro fuel
  induction fuel with
  | zero => intro start h; omega
  | succ fuel ih =>
    intro start h
    rw [chunkLoop]
    by_cases hs : start < points.length
    · rw [if_pos hs]
      by_cases hl : min (start + mcp) (points.length - 1) = points.length - 1
      · have hnext : chunkNextStart points.length mcp start = points.length := by
          unfold chunkNextStart chunkEnd
          rw [if_pos hl, if_pos hl, hl]
          omega
        have hrec := ih (chunkNextStart points.length mcp start) (by rw [hnext]; omega)
        obtain ⟨rest, hrest⟩ := Option.isSome_iff_exists.mp hrec
        simp [hrest]
      · have he0 : min (start + mcp) (points.length - 1) = start + mcp := by omega
        have hnext : chunkNextStart points.length mcp start = start + mcp := by
          unfold chunkNextStart chunkEnd
          rw [if_neg hl, if_neg hl, he0]
          omega
        have hrec := ih (chunkNextStart points.length mcp start) (by rw [hnext]; omega)
        obtain ⟨rest, hrest⟩ := Option.isSome_iff_exists.mp hrec
        simp [hrest]
    · rw [if_neg hs]
      simp

/-- Concrete four-point input used against C1. -/
def pts4C1 : List Pt := [((0, 0), 1), ((1, 0), 1), ((2, 0), 1), ((3, 0), 1)]

/-- Concrete two-point input used against C4. -/
def pts2C4 : List Pt := [((0, 0), 1), ((1, 0), 1)]

/-! ## C1 -/

/-- C1 (corrected): for `n ≥ 4` input points and `S ≥ 1` segments per
span, `catmull_rom_spline` returns exactly `(n-1)*S + 1` points — not
`(n-3)*S + 1` as claimed: the padded control sequence has `n+2` entries,
so the window loop runs `n-1` times, emitting `S` samples each, plus the
final appended input point. -/
theorem c1_catmull_length (points : List Pt) (S : ℕ) (h4 : 4 ≤ points.length)
    (hS : 1 ≤ S) :
    (catmull_rom_spline points S).length = (points.length - 1) * S + 1 := by
  unfold catmull_rom_spline
  rw [if_neg (by omega)]
  rw [List.length_append, length_flatMap_const _ S _ (fun i => by simp)]
  simp only [List.length_cons, List.length_append, List.length_singleton]
  congr 2

/-- C1 counterexample: on a concrete 4-point input with `S = 1` the output
has 4 points, not `(4-3)*1 + 1 = 2`. -/
theorem c1_counterexample :
    ¬ (catmull_rom_spline pts4C1 1).length = (4 - 3) * 1 + 1 := by decide

/-- C1 witness: the corrected length formula evaluated on the concrete
4-point input with `S = 1`. -/
theorem c1_witness :
    4 ≤ pts4C1.length ∧ 1 ≤ 1 ∧
      (catmull_rom_spline pts4C1 1).length = (pts4C1.length - 1) * 1 + 1 :=
  ⟨by decide, by decide, c1_catmull_length pts4C1 1 (by decide) (by decide)⟩

/-! ## C4 -/

/-- C4 (corrected): for every `max_chunk_points ≥ 1` the chunking loop of
`stroke_to_world_submeshes` terminates (fuel `length + 1` suffices, i.e.
the source's `while` loop exits after at most `length` iterations).  For
`max_chunk_points = 0` and at least 2 points it does not terminate (see
the counterexample). -/
theorem c4_submeshes_total (points : List Pt) (mcp : ℕ) (hm : 1 ≤ mcp) :
    (stroke_to_world_submeshes points mcp).isSome := by
  unfold stroke_to_world_submeshes
  by_cases h : points.length < 2
  · rw [if_pos h]; simp
  · rw [if_neg h]
    have := chunkLoop_total points mcp hm (points.length + 1) 0 (by omega)
    obtain ⟨res, hres⟩ := Option.isSome_iff_exists.mp this
    rw [hres]
    simp

/-- C4 counterexample: with `max_chunk_points = 0` and a 2-point stroke the
loop guard holds at `start = 0` and the loop body maps `start` back to `0`
(`end = min(0,1)+1 = 1`, then `start = end - 1 = 0`), so the `while` loop
never exits: the fuelled rendering exhausts any fuel (here 100). -/
theorem c4_counterexample :
    0 < pts2C4.length ∧ chunkNextStart pts2C4.length 0 0 = 0 ∧
      chunkLoop pts2C4 0 100 0 = none :=
  ⟨by decide, by decide, by rfl⟩

/-- C4 witness: termination instantiated on the concrete 2-point stroke
with `max_chunk_points = 1`. -/
theorem c4_witness : 1 ≤ 1 ∧ (stroke_to_world_submeshes pts2C4 1).isSome :=
  ⟨by decide, c4_submeshes_total pts2C4 1 (by decide)⟩

/-! ## C5: mesh counts for a single chunk with one cap -/

/-- The cap fan pushes `CAP_SEGMENTS + 2` vertices (center plus an
inclusive rim). -/
theorem capVertexList_length (center : Option Vec2) (cr a0 a1 : Option ℝ)
    (c : ℕ × ℕ × ℕ × ℕ) (nrm : ℝ × ℝ × ℝ × ℝ) :
    (capVertexList center cr a0 a1 c nrm).length = CAP_SEGMENTS + 2 := by
  simp [capVertexList]

/-- `draw_cap` grows the vertex buffer by `CAP_SEGMENTS + 2`. -/
theorem draw_cap_vertices_length (vs : List Vertex) (is : List ℕ)
    (l r : Option Vec2) (c : ℕ × ℕ × ℕ × ℕ) (nrm : ℝ × ℝ × ℝ × ℝ) :
    (draw_cap vs is l r c nrm).1.length = vs.length + (CAP_SEGMENTS + 2) := by
  simp [draw_cap, capVertexList_length]

/-- `draw_cap` grows the index buffer by `3 * CAP_SEGMENTS`. -/
theorem draw_cap_indices_length (vs : List Vertex) (is : List ℕ)
    (l r : Option Vec2) (c : ℕ × ℕ × ℕ × ℕ) (nrm : ℝ × ℝ × ℝ × ℝ) :
    (draw_cap vs is l r c nrm).2.length = is.length + CAP_SEGMENTS * 3 := by
  have h := length_flatMap_const CAP_SEGMENTS 3
    (fun j => [vs.length % 65536, (vs.length % 65536 + 1 + j) % 65536,
               (vs.length % 65536 + 2 + j) % 65536]) (fun i => rfl)
  simp only [draw_cap, List.length_append, h]

/-- Every index `draw_cap` appends refers into the first
`vs.length + CAP_SEGMENTS + 2` vertex slots (wrapping `u16` arithmetic can
only shrink an index). -/
theorem draw_cap_indices_mem (vs : List Vertex) (is : List ℕ)
    (l r : Option Vec2) (c : ℕ × ℕ × ℕ × ℕ) (nrm : ℝ × ℝ × ℝ × ℝ) :
    ∀ i ∈ (draw_cap vs is l r c nrm).2,
      i ∈ is ∨ i < vs.length + (CAP_SEGMENTS + 2) := by
  intro i hi
  simp only [draw_cap, List.mem_append] at hi
  rcases hi with hi | hi
  · exact Or.inl hi
  · right
    simp only [List.mem_flatMap, List.mem_range] at hi
    obtain ⟨j, hj, hmem⟩ := hi
    have h1 : vs.length % 65536 ≤ vs.length := Nat.mod_le _ _
    have h2 : (vs.length % 65536 + 1 + j) % 65536 ≤ vs.length % 65536 + 1 + j :=
      Nat.mod_le _ _
    have h3 : (vs.length % 65536 + 2 + j) % 65536 ≤ vs.length % 65536 + 2 + j :=
      Nat.mod_le _ _
    have hc : CAP_SEGMENTS = 8 := rfl
    simp only [List.mem_cons, List.not_mem_nil, or_false] at hmem
    rcases hmem with rfl | rfl | rfl <;> omega

/-- The ribbon emits two vertices per stroke point. -/
theorem railVertices_length (points : List Pt) (c : ℕ × ℕ × ℕ × ℕ)
    (nrm : ℝ × ℝ × ℝ × ℝ) :
    (railVertices points c nrm).length = points.length * 2 := by
  simp only [railVertices]
  exact length_flatMap_const _ 2 _ (fun i => rfl)

/-- The ribbon emits six indices per segment. -/
theorem segmentIndices_length (n : ℕ) :
    (segmentIndices n).length = (n - 1) * 6 := by
  simp only [segmentIndices]
  exact length_flatMap_const _ 6 _ (fun i => rfl)

/-- Every ribbon index refers into the first `2n` vertex slots. -/
theorem segmentIndices_mem (n : ℕ) (hn : 1 ≤ n) :
    ∀ i ∈ segmentIndices n, i < 2 * n := by
  intro i hi
  simp only [segmentIndices, List.mem_flatMap, List.mem_range] at hi
  obtain ⟨j, hj, hmem⟩ := hi
  have h0 : 2 * j % 65536 ≤ 2 * j := Nat.mod_le _ _
  have h1 : (2 * j + 1) % 65536 ≤ 2 * j + 1 := Nat.mod_le _ _
  have h2 : 2 * (j + 1) % 65536 ≤ 2 * (j + 1) := Nat.mod_le _ _
  have h3 : (2 * (j + 1) + 1) % 65536 ≤ 2 * (j + 1) + 1 := Nat.mod_le _ _
  simp only [List.mem_cons, List.not_mem_nil, or_false] at hmem
  rcases hmem with rfl | rfl | rfl | rfl | rfl | rfl <;> omega

/-- Concrete two-point input used against C5. -/
def pts2C5 : List Pt := [((0, 0), 1), ((1, 0), 1)]

/-- C5 (corrected): a single-chunk tessellation of `n ≥ 2` points with
exactly one cap has `2n + (8+2)` vertices (the cap contributes its center
plus `8+1` rim vertices, i.e. 10, not the claimed `2*(8+1) = 18` extra),
`6(n-1) + 3*8` indices (as claimed), and every index is strictly below the
vertex count (as claimed). -/
theorem c5_single_chunk_counts (points : List Pt) (h2 : 2 ≤ points.length) :
    (build_stroke_mesh_chunk points true false).vertices.length =
        2 * points.length + (8 + 2) ∧
    (build_stroke_mesh_chunk points true false).indices.length =
        6 * (points.length - 1) + 3 * 8 ∧
    ∀ i ∈ (build_stroke_mesh_chunk points true false).indices,
      i < (build_stroke_mesh_chunk points true false).vertices.length := by
  have hn : ¬ points.length < 2 := by omega
  unfold build_stroke_mesh_chunk
  rw [if_neg hn]
  simp only [if_true, if_false, Bool.false_eq_true, ite_false, ite_true]
  refine ⟨?_, ?_, ?_⟩
  · rw [draw_cap_vertices_length, railVertices_length]
    simp only [CAP_SEGMENTS]
    omega
  · rw [draw_cap_indices_length, segmentIndices_length]
    simp only [CAP_SEGMENTS]
    omega
  · intro i hi
    rw [draw_cap_vertices_length, railVertices_length]
    have := draw_cap_indices_mem
      (railVertices points (color_u8 0 0 0 1) (0, 0, 1, 0))
      (segmentIndices points.length)
      (truncPos ((railVertices points (color_u8 0 0 0 1) (0, 0, 1, 0)).getD 0 default))
      (truncPos ((railVertices points (color_u8 0 0 0 1) (0, 0, 1, 0)).getD 1 default))
      (color_u8 0 0 0 1) (0, 0, 1, 0) i hi
    rcases this with hseg | hlt
    · have := segmentIndices_mem points.length (by omega) i hseg
      simp only [CAP_SEGMENTS]
      omega
    · rw [railVertices_length] at hlt
      exact hlt

/-- C5 counterexample: a 2-point single chunk with one cap has 14
vertices, not `2*2 + 2*(8+1) = 22` as the claim's formula demands. -/
theorem c5_counterexample :
    ¬ (build_stroke_mesh_chunk pts2C5 true false).vertices.length =
        2 * 2 + 2 * (8 + 1) := by decide

/-- C5 witness: the corrected count formulas on the concrete 2-point
stroke. -/
theorem c5_witness :
    2 ≤ pts2C5.length ∧
      (build_stroke_mesh_chunk pts2C5 true false).vertices.length =
          2 * pts2C5.length + (8 + 2) ∧
      (build_stroke_mesh_chunk pts2C5 true false).indices.length =
          6 * (pts2C5.length - 1) + 3 * 8 ∧
      ∀ i ∈ (build_stroke_mesh_chunk pts2C5 true false).indices,
        i < (build_stroke_mesh_chunk pts2C5 true false).vertices.length :=
  ⟨by decide, c5_single_chunk_counts pts2C5 (by decide)⟩

/-! ## C3: unguarded zero-length normalize -/

/-- Two coincident consecutive points: the failing input for C3. -/
def ptsC3 : List Pt := [((0, 0), 1), ((0, 0), 1)]

/-- Normalising the zero vector yields NaN (modelled `none`). -/
theorem vnormalize_zero : vnormalize (0 : Vec2) = none := by
  unfold vnormalize vlength
  norm_num [Prod.fst_zero, Prod.snd_zero]

/-- C3 (code bug): `build_stroke_mesh_chunk` does NOT guard the
normalisation of a zero-length direction vector.  On the input with two
coincident consecutive points the very first emitted vertex already
carries a NaN position (`none` in the model): the spec's required
guard/fallback is absent from the code. -/
theorem c3_nan_vertex :
    ∃ v ∈ (build_stroke_mesh_chunk ptsC3 true true).vertices,
      v.position = none := by
  refine ⟨⟨none, (0, 0), color_u8 0 0 0 1, (0, 0, 1, 0)⟩, ?_, rfl⟩
  unfold build_stroke_mesh_chunk
  rw [if_neg (by decide)]
  simp only [if_true, ite_true, draw_cap, List.mem_append]
  left; left
  have hrange : List.range (ptsC3.length) = [0, 1] := rfl
  simp only [railVertices, hrange, List.flatMap_cons, List.flatMap_nil,
    List.append_nil, List.mem_append, List.mem_cons]
  left; left
  simp only [strokeDirections, hrange, List.map_cons, List.map_nil]
  have h0 : (0 : ℕ) = ptsC3.length - 1 ↔ False := by simp [ptsC3]
  simp only [ptsC3, List.getD_cons_zero, List.getD_cons_succ, List.length_cons,
    List.length_nil, vsub, sub_self, sub_zero]
  norm_num [vnormalize_zero]

/-! ## C8: add, add, undo, redo round trip -/

/-- C8 (confirmed): from an empty canvas, performing the forward command
steps for strokes `A` then `B`, one `undo` leaves the live stroke list
`[A]`, and a subsequent `redo` restores `[A, B]` and pushes the replayed
`AddStroke B` back onto the undo stack (below `AddStroke A`). -/
theorem c8_undo_redo_round_trip (A B : Stroke) :
    (undo (addStrokeSteps (addStrokeSteps InfiniteCanvas.new A) B)).strokes
        = [A] ∧
    (redo (undo (addStrokeSteps (addStrokeSteps InfiniteCanvas.new A) B))).strokes
        = [A, B] ∧
    (redo (undo (addStrokeSteps (addStrokeSteps InfiniteCanvas.new A) B))).command_stack.undo_stack
        = [Command.AddStroke B, Command.AddStroke A] := by
  by_cases hAB : A = B
  · subst hAB
    simp [undo, redo, addStrokeSteps, InfiniteCanvas.new, CommandStack.new,
      popUndo, popRedo, pushUndo, pushRedo, findStroke, List.findIdx?_cons]
  · have hA : (decide (A = B)) = false := by simp [hAB]
    have hB : (decide (B = B)) = true := by simp
    simp [undo, redo, addStrokeSteps, InfiniteCanvas.new, CommandStack.new,
      popUndo, popRedo, pushUndo, pushRedo, findStroke, List.findIdx?_cons,
      hA, hB]

/-! ## C10: undo of an AddStroke with no structural match -/

/-- C10 (confirmed): when `undo` pops `AddStroke s` and no live stroke is
structurally equal to `s`, the stroke list, cache and redo stack are
untouched; only the popped command disappears from the undo stack. -/
theorem c10_undo_unmatched (c : InfiniteCanvas) (s : Stroke)
    (rest : List Command)
    (hstack : c.command_stack.undo_stack = Command.AddStroke s :: rest)
    (hno : ∀ x ∈ c.strokes, ¬ x = s) :
    (undo c).strokes = c.strokes ∧
    (undo c).stroke_cache = c.stroke_cache ∧
    (undo c).command_stack.redo_stack = c.command_stack.redo_stack ∧
    (undo c).command_stack.undo_stack = rest ∧
    (undo c).current_stroke = c.current_stroke := by
  have hfind : findStroke c.strokes s = none := by
    unfold findStroke
    rw [List.findIdx?_eq_none_iff]
    intro x hx
    simpa using hno x hx
  unfold undo popUndo
  rw [hstack]
  simp [hfind]

/-- Concrete canvas for the C10 witness: empty stroke list, one stale
`AddStroke` command on the undo stack. -/
def canvasC10 : InfiniteCanvas :=
  ⟨[], [], none, ⟨[Command.AddStroke [((0, 0), 1)]], []⟩, 1⟩

/-- C10 witness: the unmatched-undo theorem evaluated on `canvasC10`. -/
theorem c10_witness :
    canvasC10.command_stack.undo_stack
        = Command.AddStroke [((0, 0), 1)] :: [] ∧
    (∀ x ∈ canvasC10.strokes, ¬ x = [((0, 0), 1)]) ∧
    ((undo canvasC10).strokes = canvasC10.strokes ∧
     (undo canvasC10).stroke_cache = canvasC10.stroke_cache ∧
     (undo canvasC10).command_stack.redo_stack
        = canvasC10.command_stack.redo_stack ∧
     (undo canvasC10).command_stack.undo_stack = [] ∧
     (undo canvasC10).current_stroke = canvasC10.current_stroke) :=
  ⟨rfl, by simp [canvasC10],
   c10_undo_unmatched canvasC10 [((0, 0), 1)] [] rfl (by simp [canvasC10])⟩

/-! ## RDP lemmas (towards C6 and C7) -/

/-- Fold invariant principle. -/
theorem foldl_inv {α β : Type} (P : β → Prop) (f : β → α → β) :
    ∀ (l : List α) (b : β), P b → (∀ acc, P acc → ∀ x ∈ l, P (f acc x)) →
      P (l.foldl f b)
  | [], b, hb, _ => hb
  | a :: t, b, hb, hstep =>
    foldl_inv P f t (f b a) (hstep b hb a (by simp))
      (fun acc hacc x hx => hstep acc hacc x (by simp [hx]))

/-- The interior scan either never updates (staying `(0, 0)`) or lands on
an interior index; in any case the chosen split index is at most
`length - 2`. -/
theorem rdpScan_inv (points : List Pt) :
    (rdpScan points = ((0 : ℝ), (0 : ℕ)) ∨ 1 ≤ (rdpScan points).2) ∧
      (rdpScan points).2 ≤ points.length - 2 := by
  unfold rdpScan
  refine foldl_inv
    (fun acc : ℝ × ℕ => (acc = ((0 : ℝ), (0 : ℕ)) ∨ 1 ≤ acc.2) ∧
      acc.2 ≤ points.length - 2) _ _ _ ⟨Or.inl rfl, Nat.zero_le _⟩ ?_
  intro acc hacc i hi
  rw [List.mem_range'_1] at hi
  dsimp only
  split
  · exact ⟨Or.inr hi.1, by omega⟩
  · exact hacc

/-- If every interior point is within `eps` of the first-last chord (and
`eps ≥ 0`), the scan's maximal distance is at most `eps`. -/
theorem rdpScan_le (points : List Pt) (eps : ℝ) (h0 : 0 ≤ eps)
    (h : ∀ i, 1 ≤ i → i ≤ points.length - 2 →
      perpendicular_distance (points.getD i default).1 points.headI.1
        (points.getLastD default).1 ≤ eps) :
    (rdpScan points).1 ≤ eps := by
  unfold rdpScan
  refine foldl_inv (fun acc : ℝ × ℕ => acc.1 ≤ eps) _ _ _ h0 ?_
  intro acc hacc i hi
  rw [List.mem_range'_1] at hi
  dsimp only
  split
  · exact h i hi.1 (by omega)
  · exact hacc

/-- `head?` of a nonempty `take`. -/
theorem head?_take_pos {α : Type} (l : List α) (n : ℕ) (h : 0 < n) :
    (l.take n).head? = l.head? := by
  cases n with
  | zero => omega
  | succ m =>
    cases l with
    | nil => rfl
    | cons a t => rfl

/-- `head?` survives `dropLast` on lists of length at least 2. -/
theorem head?_dropLast_of_le {α : Type} (l : List α) (h : 2 ≤ l.length) :
    l.dropLast.head? = l.head? := by
  cases l with
  | nil => simp at h
  | cons a t =>
    cases t with
    | nil => simp at h
    | cons b u => simp

/-- `getLast?` survives a `drop` that does not empty the list. -/
theorem getLast?_drop_of_lt {α : Type} (l : List α) (n : ℕ) (h : n < l.length) :
    (l.drop n).getLast? = l.getLast? := by
  have hne : l.drop n ≠ [] := by
    intro hnil
    have := congrArg List.length hnil
    simp at this
    omega
  have := List.getLast?_append_of_ne_nil (l.take n) hne
  rw [List.take_append_drop] at this
  exact this.symm

/-- `head?` of a nonempty list is its `headI`. -/
theorem head?_eq_some_headI {α : Type} [Inhabited α] (l : List α) (h : l ≠ []) :
    l.head? = some l.headI := by
  cases l with
  | nil => contradiction
  | cons a t => rfl

/-- `getLast?` of a nonempty list is its `getLastD default`. -/
theorem getLast?_eq_some_getLastD {α : Type} [Inhabited α] (l : List α)
    (h : l ≠ []) : l.getLast? = some (l.getLastD default) := by
  rw [List.getLastD_eq_getLast?]
  obtain ⟨y, hy⟩ := Option.isSome_iff_exists.mp (List.getLast?_isSome.mpr h)
  rw [hy]
  rfl

/-- Any successful RDP run on at least 2 points returns at least 2 points. -/
theorem rdpF_length_ge (fuel : ℕ) :
    ∀ (points : List Pt) (eps : ℝ) (r : List Pt),
      rdpF fuel points eps = some r → 2 ≤ points.length → 2 ≤ r.length := by
  induction fuel with
  | zero => intro pts eps r h _; simp [rdpF] at h
  | succ fuel ih =>
    intro pts eps r h h2
    rw [rdpF] at h
    by_cases hlen : pts.length < 3
    · rw [if_pos hlen] at h
      obtain rfl := Option.some.inj h
      exact h2
    · rw [if_neg hlen] at h
      by_cases heps : eps < (rdpScan pts).1
      · rw [if_pos heps] at h
        rcases hl : rdpF fuel (pts.take ((rdpScan pts).2 + 1)) eps with _ | left
        · rw [hl] at h
          simp at h
        rcases hr : rdpF fuel (pts.drop (rdpScan pts).2) eps with _ | right
        · rw [hl, hr] at h
          simp at h
        rw [hl, hr] at h
        simp only [Option.some.injEq] at h
        subst h
        have hidx := (rdpScan_inv pts).2
        have hrlen : 2 ≤ (pts.drop (rdpScan pts).2).length := by
          rw [List.length_drop]
          omega
        have := ih _ eps right hr hrlen
        rw [List.length_append]
        omega
      · rw [if_neg heps] at h
        obtain rfl := Option.some.inj h
        simp

/-- Any successful RDP run preserves the first and last point exactly. -/
theorem rdpF_ends (fuel : ℕ) :
    ∀ (points : List Pt) (eps : ℝ) (r : List Pt),
      rdpF fuel points eps = some r →
      r.head? = points.head? ∧ r.getLast? = points.getLast? := by
  induction fuel with
  | zero => intro pts eps r h; simp [rdpF] at h
  | succ fuel ih =>
    intro pts eps r h
    rw [rdpF] at h
    by_cases hlen : pts.length < 3
    · rw [if_pos hlen] at h
      obtain rfl := Option.some.inj h
      exact ⟨rfl, rfl⟩
    · have hne : pts ≠ [] := by
        intro hnil; rw [hnil] at hlen; simp at hlen
      rw [if_neg hlen] at h
      by_cases heps : eps < (rdpScan pts).1
      · rw [if_pos heps] at h
        rcases hl : rdpF fuel (pts.take ((rdpScan pts).2 + 1)) eps with _ | left
        · rw [hl] at h
          simp at h
        rcases hr : rdpF fuel (pts.drop (rdpScan pts).2) eps with _ | right
        · rw [hl, hr] at h
          simp at h
        rw [hl, hr] at h
        simp only [Option.some.injEq] at h
        subst h
        have hidx := (rdpScan_inv pts).2
        have hrlen : 2 ≤ (pts.drop (rdpScan pts).2).length := by
          rw [List.length_drop]
          omega
        have hright := ih _ eps right hr
        have hrne : right ≠ [] := by
          have := rdpF_length_ge fuel _ eps right hr hrlen
          intro hnil; rw [hnil] at this; simp at this
        constructor
        · by_cases hidx0 : (rdpScan pts).2 = 0
          · -- split index 0: the left slice is a singleton, so it
            -- contributes nothing and the head comes from the right run
            have hlone : pts.take ((rdpScan pts).2 + 1) = [pts.headI] := by
              rw [hidx0]
              cases pts with
              | nil => contradiction
              | cons a t => rfl
            have hleft : left = [pts.headI] := by
              rw [hlone] at hl
              cases fuel with
              | zero => simp [rdpF] at hl
              | succ f =>
                rw [rdpF] at hl
                rw [if_pos (by simp)] at hl
                exact (Option.some.inj hl).symm
            rw [hleft]
            simp only [List.dropLast_single, List.nil_append]
            rw [hright.1, hidx0]
            rfl
          · have hllen : 2 ≤ (pts.take ((rdpScan pts).2 + 1)).length := by
              rw [List.length_take]
              omega
            have hleft := ih _ eps left hl
            have hlghe := rdpF_length_ge fuel _ eps left hl hllen
            have hdne : left.dropLast ≠ [] := by
              intro hnil
              have := congrArg List.length hnil
              rw [List.length_dropLast] at this
              simp at this
              omega
            rw [List.head?_append_of_ne_nil _ hdne,
              head?_dropLast_of_le left hlghe, hleft.1,
              head?_take_pos pts _ (by omega)]
        · rw [List.getLast?_append_of_ne_nil _ hrne, hright.2,
            getLast?_drop_of_lt pts _ (by omega)]
      · rw [if_neg heps] at h
        obtain rfl := Option.some.inj h
        constructor
        · rw [head?_eq_some_headI pts hne]
          rfl
        · rw [getLast?_eq_some_getLastD pts hne]
          rfl

/-- RDP output size is antitone in epsilon (same input, same fuel). -/
theorem rdpF_mono (fuel : ℕ) :
    ∀ (points : List Pt) (e1 e2 : ℝ) (r1 r2 : List Pt), e1 ≤ e2 →
      rdpF fuel points e1 = some r1 → rdpF fuel points e2 = some r2 →
      r2.length ≤ r1.length := by
  induction fuel with
  | zero => intro pts e1 e2 r1 r2 _ h1 _; simp [rdpF] at h1
  | succ fuel ih =>
    intro pts e1 e2 r1 r2 he h1 h2
    have h1copy := h1
    rw [rdpF] at h1 h2
    by_cases hlen : pts.length < 3
    · rw [if_pos hlen] at h1 h2
      obtain rfl := Option.some.inj h1
      obtain rfl := Option.some.inj h2
      exact le_refl _
    · rw [if_neg hlen] at h1 h2
      by_cases h2big : e2 < (rdpScan pts).1
      · have h1big : e1 < (rdpScan pts).1 := lt_of_le_of_lt he h2big
        rw [if_pos h1big] at h1
        rw [if_pos h2big] at h2
        rcases hl1 : rdpF fuel (pts.take ((rdpScan pts).2 + 1)) e1 with _ | l1
        · rw [hl1] at h1
          simp at h1
        rcases hr1 : rdpF fuel (pts.drop (rdpScan pts).2) e1 with _ | rt1
        · rw [hl1, hr1] at h1
          simp at h1
        rcases hl2 : rdpF fuel (pts.take ((rdpScan pts).2 + 1)) e2 with _ | l2
        · rw [hl2] at h2
          simp at h2
        rcases hr2 : rdpF fuel (pts.drop (rdpScan pts).2) e2 with _ | rt2
        · rw [hl2, hr2] at h2
          simp at h2
        rw [hl1, hr1] at h1
        rw [hl2, hr2] at h2
        simp only [Option.some.injEq] at h1 h2
        subst h1
        subst h2
        have hL := ih _ e1 e2 l1 l2 he hl1 hl2
        have hR := ih _ e1 e2 rt1 rt2 he hr1 hr2
        rw [List.length_append, List.length_append,
          List.length_dropLast, List.length_dropLast]
        omega
      · rw [if_neg h2big] at h2
        obtain rfl := Option.some.inj h2
        have := rdpF_length_ge (fuel + 1) pts e1 r1 h1copy (by omega)
        simpa using this

/-- For nonnegative epsilon, fuel exceeding the input length suffices:
the recursion always terminates (split indices are then interior). -/
theorem rdpF_total (fuel : ℕ) :
    ∀ (points : List Pt) (eps : ℝ), 0 ≤ eps → points.length < fuel →
      (rdpF fuel points eps).isSome := by
  induction fuel with
  | zero => intro pts eps _ h; omega
  | succ fuel ih =>
    intro pts eps h0 hfuel
    rw [rdpF]
    by_cases hlen : pts.length < 3
    · rw [if_pos hlen]; simp
    · rw [if_neg hlen]
      by_cases heps : eps < (rdpScan pts).1
      · rw [if_pos heps]
        have hinv := rdpScan_inv pts
        have hidx1 : 1 ≤ (rdpScan pts).2 := by
          rcases hinv.1 with hz | h1
          · rw [hz] at heps
            simp at heps
            exact absurd (lt_of_le_of_lt h0 heps) (lt_irrefl 0)
          · exact h1
        have hltake : (pts.take ((rdpScan pts).2 + 1)).length < fuel := by
          rw [List.length_take]
          have := hinv.2
          omega
        have hldrop : (pts.drop (rdpScan pts).2).length < fuel := by
          rw [List.length_drop]
          omega
        obtain ⟨left, hl⟩ := Option.isSome_iff_exists.mp (ih _ eps h0 hltake)
        obtain ⟨right, hr⟩ := Option.isSome_iff_exists.mp (ih _ eps h0 hldrop)
        rw [hl, hr]
        simp
      · rw [if_neg heps]
        simp

/-! ## C6 and C7 -/

/-- The collinear three-point input of C6. -/
def ptsC6 : List Pt := [((0, 0), 1), ((10, 0), 1), ((20, 0), 1)]

/-- Two-point input used for the C7 witness. -/
def pts2C7 : List Pt := [((0, 0), 1), ((5, 5), 2)]

/-- The middle collinear point is at perpendicular distance 0 from the
chord. -/
theorem pd_collinear_zero :
    perpendicular_distance ((10 : ℝ), (0 : ℝ)) ((0 : ℝ), (0 : ℝ))
      ((20 : ℝ), (0 : ℝ)) = 0 := by
  have h400 : Real.sqrt 400 = 20 := by
    rw [show (400 : ℝ) = 20 ^ 2 by norm_num]
    exact Real.sqrt_sq (by norm_num)
  unfold perpendicular_distance vsub vdot vadd smul vlength
  norm_num [h400]

/-- C6 (confirmed): whenever `epsilon ≥ 0` dominates every interior
point's perpendicular distance to the first-last chord, RDP collapses the
input (of length ≥ 2) to exactly `[first, last]`; and on the concrete
collinear input `[(0,0),(10,0),(20,0)]` with `epsilon = 0` the strict `>`
comparison makes the zero-deviation middle point disappear. -/
theorem c6_rdp_collapse :
    (∀ (points : List Pt) (eps : ℝ), 2 ≤ points.length → 0 ≤ eps →
      (∀ i, 1 ≤ i → i ≤ points.length - 2 →
        perpendicular_distance (points.getD i default).1 points.headI.1
          (points.getLastD default).1 ≤ eps) →
      ramer_douglas_peucker points eps
        = some [points.headI, points.getLastD default]) ∧
    ramer_douglas_peucker ptsC6 0 = some [((0, 0), 1), ((20, 0), 1)] := by
  have hgen : ∀ (points : List Pt) (eps : ℝ), 2 ≤ points.length → 0 ≤ eps →
      (∀ i, 1 ≤ i → i ≤ points.length - 2 →
        perpendicular_distance (points.getD i default).1 points.headI.1
          (points.getLastD default).1 ≤ eps) →
      ramer_douglas_peucker points eps
        = some [points.headI, points.getLastD default] := by
    intro pts eps h2 h0 hin
    unfold ramer_douglas_peucker
    rw [rdpF]
    by_cases hlen : pts.length < 3
    · rw [if_pos hlen]
      have hl2 : pts.length = 2 := by omega
      obtain ⟨a, b, rfl⟩ := List.length_eq_two.mp hl2
      rfl
    · rw [if_neg hlen, if_neg (not_lt.mpr (rdpScan_le pts eps h0 hin))]
  refine ⟨hgen, ?_⟩
  have := hgen ptsC6 0 (by decide) (le_refl 0) ?_
  · exact this
  · intro i h1 h2
    have hi : i = 1 := by
      have : ptsC6.length = 3 := rfl
      omega
    subst hi
    show perpendicular_distance ((10 : ℝ), (0 : ℝ)) ((0 : ℝ), (0 : ℝ))
      ((20 : ℝ), (0 : ℝ)) ≤ 0
    rw [pd_collinear_zero]

/-- C6 witness: the collapse theorem applied to the concrete collinear
input at `epsilon = 0`. -/
theorem c6_witness :
    2 ≤ ptsC6.length ∧ (0 : ℝ) ≤ 0 ∧
      ramer_douglas_peucker ptsC6 0
        = some [ptsC6.headI, ptsC6.getLastD default] :=
  ⟨by decide, le_refl 0,
    c6_rdp_collapse.1 ptsC6 0 (by decide) (le_refl 0) (by
      intro i h1 h2
      have hi : i = 1 := by
        have : ptsC6.length = 3 := rfl
        omega
      subst hi
      show perpendicular_distance ((10 : ℝ), (0 : ℝ)) ((0 : ℝ), (0 : ℝ))
        ((20 : ℝ), (0 : ℝ)) ≤ 0
      rw [pd_collinear_zero])⟩

/-- C7 (confirmed): RDP preserves the exact first and last point for every
input of length ≥ 2 (whenever it returns), and for a fixed input the
output point count is non-increasing as epsilon increases. -/
theorem c7_rdp_endpoints_monotone :
    (∀ (points : List Pt) (eps : ℝ) (r : List Pt), 2 ≤ points.length →
      ramer_douglas_peucker points eps = some r →
      r.head? = points.head? ∧ r.getLast? = points.getLast?) ∧
    (∀ (points : List Pt) (e1 e2 : ℝ) (r1 r2 : List Pt), e1 ≤ e2 →
      ramer_douglas_peucker points e1 = some r1 →
      ramer_douglas_peucker points e2 = some r2 →
      r2.length ≤ r1.length) :=
  ⟨fun pts eps r _ h => rdpF_ends (pts.length + 1) pts eps r h,
   fun pts e1 e2 r1 r2 he h1 h2 =>
     rdpF_mono (pts.length + 1) pts e1 e2 r1 r2 he h1 h2⟩

/-- C7 witness: both properties evaluated on a concrete 2-point stroke at
`epsilon = 0` and `epsilon = 1`. -/
theorem c7_witness :
    2 ≤ pts2C7.length ∧
    ramer_douglas_peucker pts2C7 0 = some pts2C7 ∧
    (0 : ℝ) ≤ 1 ∧
    ramer_douglas_peucker pts2C7 1 = some pts2C7 ∧
    (pts2C7.head? = pts2C7.head? ∧ pts2C7.getLast? = pts2C7.getLast?) ∧
    pts2C7.length ≤ pts2C7.length :=
  ⟨by decide, rfl, by norm_num, rfl,
   c7_rdp_endpoints_monotone.1 pts2C7 0 pts2C7 (by decide) rfl,
   c7_rdp_endpoints_monotone.2 pts2C7 0 1 pts2C7 pts2C7 (by norm_num) rfl rfl⟩

/-! ## C2: the chunk partition -/

/-- Reassembling chunk point windows: the first window, then every later
window with its leading two-point overlap removed. -/
def chunkJoin : List (List Pt) → List Pt
  | [] => []
  | c :: rest => c ++ rest.flatMap (List.drop 2)

/-- Two consecutive chunk windows share exactly their two boundary
points: the second window starts with the last two points of the first. -/
def twoOverlap (a b : List Pt) : Prop := b.take 2 = a.drop (a.length - 2)

/-- The loop, started anywhere with at least two points left, partitions
the remaining points into windows of 2 to `mcp + 2` points, consecutive
windows overlapping in exactly two boundary points, whose reassembly is
exactly the remaining point suffix. -/
theorem chunkLoop_spec (points : List Pt) (mcp : ℕ) (hm : 1 ≤ mcp) :
    ∀ fuel start, start + 2 ≤ points.length →
      points.length - start + 1 ≤ fuel →
      ∃ res, chunkLoop points mcp fuel start = some res ∧ res ≠ [] ∧
        chunkJoin (res.map (fun a => a.1)) = points.drop start ∧
        (∀ c ∈ res, 2 ≤ c.1.length ∧ c.1.length ≤ mcp + 2) ∧
        List.Chain' twoOverlap (res.map (fun a => a.1)) := by
  intro fuel
  induction fuel with
  | zero => intro start h2 hf; omega
  | succ fuel ih =>
    intro start h2 hf
    have hs : start < points.length := by omega
    by_cases hl : min (start + mcp) (points.length - 1) = points.length - 1
    · -- final chunk: it runs to the last point and the loop then exits
      have hend : chunkEnd points.length mcp start = points.length - 1 := by
        unfold chunkEnd
        rw [if_pos hl]
        exact hl
      have hnext : chunkNextStart points.length mcp start = points.length := by
        unfold chunkNextStart
        rw [if_pos hl, hend]
        omega
      have hstop : chunkLoop points mcp fuel points.length = some [] := by
        cases fuel with
        | zero => omega
        | succ g =>
          rw [chunkLoop, if_neg (by omega)]
      have hrun : chunkLoop points mcp (fuel + 1) start =
          some [((points.drop start).take (chunkEnd points.length mcp start + 1 - start),
                 decide (start = 0),
                 decide (chunkEnd points.length mcp start = points.length - 1))] := by
        rw [chunkLoop, if_pos hs]
        simp only [hnext, hstop]
      have hsub : (points.drop start).take (chunkEnd points.length mcp start + 1 - start)
          = points.drop start := by
        apply List.take_of_length_le
        rw [List.length_drop, hend]
        omega
      refine ⟨_, hrun, by simp, ?_, ?_, ?_⟩
      · simp only [List.map_cons, List.map_nil, chunkJoin, hsub,
          List.flatMap_nil, List.append_nil]
      · intro c hc
        simp only [List.mem_singleton] at hc
        subst hc
        constructor
        · simp only [hsub, List.length_drop]
          omega
        · simp only [hsub, List.length_drop]
          omega
      · simp
    · -- interior chunk of exactly mcp + 2 points, next start = end - 1
      have he0 : min (start + mcp) (points.length - 1) = start + mcp := by omega
      have hend : chunkEnd points.length mcp start = start + mcp + 1 := by
        unfold chunkEnd
        rw [if_neg hl, he0]
      have hnext : chunkNextStart points.length mcp start = start + mcp := by
        unfold chunkNextStart
        rw [if_neg hl, hend]
        omega
      have hlt : start + mcp + 2 ≤ points.length := by omega
      obtain ⟨res', hres', hne', hjoin', hsz', hchain'⟩ :=
        ih (start + mcp) (by omega) (by omega)
      rcases res' with _ | ⟨x, xs⟩
      · exact absurd rfl hne'
      have hx2 : 2 ≤ x.1.length := (hsz' x (by simp)).1
      have hjoin'' : x.1 ++ (xs.map (fun a => a.1)).flatMap (List.drop 2)
          = points.drop (start + mcp) := by
        simpa [chunkJoin] using hjoin'
      have hrun : chunkLoop points mcp (fuel + 1) start =
          some (((points.drop start).take (chunkEnd points.length mcp start + 1 - start),
                 decide (start = 0),
                 decide (chunkEnd points.length mcp start = points.length - 1)) :: x :: xs) := by
        rw [chunkLoop, if_pos hs]
        simp only [hnext, hres']
      have hidx : chunkEnd points.length mcp start + 1 - start = mcp + 2 := by
        rw [hend]
        omega
      have hsublen : ((points.drop start).take (chunkEnd points.length mcp start + 1 - start)).length
          = mcp + 2 := by
        rw [hidx, List.length_take, List.length_drop]
        omega
      refine ⟨_, hrun, by simp, ?_, ?_, ?_⟩
      · -- reassembly of the suffix
        simp only [List.map_cons, chunkJoin, List.flatMap_cons, hidx]
        have h1 : (x.1 ++ (xs.map (fun a => a.1)).flatMap (List.drop 2)).drop 2
            = x.1.drop 2 ++ (xs.map (fun a => a.1)).flatMap (List.drop 2) :=
          List.drop_append_of_le_length hx2
        have hdrop2 : x.1.drop 2 ++ (xs.map (fun a => a.1)).flatMap (List.drop 2)
            = points.drop (start + mcp + 2) := by
          rw [← h1, hjoin'', List.drop_drop]
        rw [hdrop2]
        have hsplit : start + mcp + 2 = start + (mcp + 2) := by omega
        rw [hsplit, ← List.drop_drop, List.take_append_drop]
      · -- window sizes
        intro c hc
        simp only [List.mem_cons] at hc
        rcases hc with rfl | hc
        · constructor
          · dsimp only
            rw [hsublen]
            omega
          · dsimp only
            rw [hsublen]
        · exact hsz' c (List.mem_cons.mpr hc)
      · -- the exact two-point overlaps
        simp only [List.map_cons] at hchain' ⊢
        rw [List.chain'_cons]
        refine ⟨?_, hchain'⟩
        unfold twoOverlap
        rw [hsublen]
        have hm2 : mcp + 2 - 2 = mcp := by omega
        rw [hm2, hidx]
        have htake : x.1.take 2 = (points.drop (start + mcp)).take 2 := by
          have h := congrArg (List.take 2) hjoin''
          rwa [List.take_append_of_le_length hx2] at h
        rw [htake, List.drop_take]
        have hm2' : mcp + 2 - mcp = 2 := by omega
        rw [hm2', List.drop_drop]

/-- Concrete three-point input used against C2. -/
def pts3C2 : List Pt := [((0, 0), 1), ((1, 0), 1), ((2, 0), 1)]

/-- C2 (corrected): for `n ≥ 2` points and `max_chunk_points ≥ 1`, the
chunking of `stroke_to_world_submeshes` yields windows of at most
`max_chunk_points + 2` points (not `+1`), consecutive windows overlap in
exactly TWO boundary points (the second window starts with the last two
points of its predecessor), and concatenating the windows with each later
window's leading two-point overlap removed reconstructs the original
sequence exactly. -/
theorem c2_chunk_partition (points : List Pt) (mcp : ℕ)
    (h2 : 2 ≤ points.length) (hm : 1 ≤ mcp) :
    ∃ res, chunkLoop points mcp (points.length + 1) 0 = some res ∧
      res ≠ [] ∧
      chunkJoin (res.map (fun a => a.1)) = points ∧
      (∀ c ∈ res, 2 ≤ c.1.length ∧ c.1.length ≤ mcp + 2) ∧
      List.Chain' twoOverlap (res.map (fun a => a.1)) := by
  have h := chunkLoop_spec points mcp hm (points.length + 1) 0 (by omega) (by omega)
  simpa using h

/-- C2 counterexample: three points with `max_chunk_points = 1` produce
the windows `[p0,p1,p2]` and `[p1,p2]`: the first window has 3 points,
exceeding the claimed bound `max_chunk_points + 1 = 2` (and the windows
overlap in the two points `p1,p2`, not one). -/
theorem c2_counterexample :
    chunkLoop pts3C2 1 4 0 =
      some [([((0, 0), 1), ((1, 0), 1), ((2, 0), 1)], true, true),
            ([((1, 0), 1), ((2, 0), 1)], false, true)] ∧
    ¬ ([((0, 0), 1), ((1, 0), 1), ((2, 0), 1)] : List Pt).length ≤ 1 + 1 :=
  ⟨rfl, by decide⟩

/-- C2 witness: the corrected partition properties on the concrete
three-point stroke with `max_chunk_points = 1`. -/
theorem c2_witness :
    2 ≤ pts3C2.length ∧ 1 ≤ 1 ∧
      (∃ res, chunkLoop pts3C2 1 (pts3C2.length + 1) 0 = some res ∧
        res ≠ [] ∧
        chunkJoin (res.map (fun a => a.1)) = pts3C2 ∧
        (∀ c ∈ res, 2 ≤ c.1.length ∧ c.1.length ≤ 1 + 2) ∧
        List.Chain' twoOverlap (res.map (fun a => a.1))) :=
  ⟨by decide, by decide, c2_chunk_partition pts3C2 1 (by decide) (by decide)⟩

/-! ## C9: cache alignment invariant -/

/-- A cache slot corresponds to its stroke: it is either unbuilt (`none`)
or holds exactly the tessellation of that stroke with the fixed
`max_chunk_points = 800` used by `draw`. -/
def slotOK (s : Stroke) (slot : Option (List Mesh)) : Prop :=
  slot = none ∨ ∃ m, stroke_to_world_submeshes s 800 = some m ∧ slot = some m

/-- The cache-alignment invariant: one slot per stroke, positionally
matched (in particular `stroke_cache.length = strokes.length`). -/
def CacheAligned (c : InfiniteCanvas) : Prop :=
  List.Forall₂ slotOK c.strokes c.stroke_cache

/-- `Forall₂` survives removal at the same index on both sides. -/
theorem forall₂_eraseIdx {α β : Type} {R : α → β → Prop} :
    ∀ {l₁ : List α} {l₂ : List β} (i : ℕ), List.Forall₂ R l₁ l₂ →
      List.Forall₂ R (l₁.eraseIdx i) (l₂.eraseIdx i) := by
  intro l₁
  induction l₁ with
  | nil =>
    intro l₂ i h
    rw [List.forall₂_nil_left_iff.mp h]
    simp [List.eraseIdx]
  | cons a t ih =>
    intro l₂ i h
    cases l₂ with
    | nil => exact absurd h (by simp)
    | cons b u =>
      obtain ⟨hab, htu⟩ := List.forall₂_cons.mp h
      cases i with
      | zero => simpa [List.eraseIdx] using htu
      | succ j => simpa [List.eraseIdx] using List.Forall₂.cons hab (ih j htu)

/-- The erase loop removes strokes and their cache slots in lockstep, so
it preserves the alignment. -/
theorem eraseLoop_preserves (pos : Vec2) (radius : ℝ) :
    ∀ (strokes : List Stroke) (cache : List (Option (List Mesh)))
      (st : CommandStack), List.Forall₂ slotOK strokes cache →
      List.Forall₂ slotOK (eraseLoop pos radius strokes cache st).1
        (eraseLoop pos radius strokes cache st).2.1 := by
  intro strokes
  induction strokes with
  | nil =>
    intro cache st h
    rw [List.forall₂_nil_left_iff.mp h]
    rw [eraseLoop]
    exact List.Forall₂.nil
  | cons s rest ih =>
    intro cache st h
    cases cache with
    | nil => exact absurd h (by simp)
    | cons slot cacheRest =>
      obtain ⟨hs, hrest⟩ := List.forall₂_cons.mp h
      rw [eraseLoop]
      by_cases hi : stroke_intersect s pos radius
      · rw [if_pos hi]
        exact ih cacheRest _ hrest
      · rw [if_neg hi]
        exact List.Forall₂.cons hs (ih cacheRest st hrest)

/-- `finalize_stroke` preserves the alignment: it appends the processed
stroke and a fresh empty slot together. -/
theorem cacheAligned_finalize (c : InfiniteCanvas) (h : CacheAligned c) :
    CacheAligned (finalize_stroke c) := by
  unfold CacheAligned at h ⊢
  unfold finalize_stroke
  rcases hcur : c.current_stroke with _ | s0
  · exact h
  · unfold addStrokeSteps
    dsimp only
    exact List.rel_append h
      (List.forall₂_cons.mpr ⟨Or.inl rfl, List.Forall₂.nil⟩)

/-- `erase_stroke_at` preserves the alignment. -/
theorem cacheAligned_erase (c : InfiniteCanvas) (pos : Vec2)
    (h : CacheAligned c) : CacheAligned (erase_stroke_at c pos) := by
  unfold CacheAligned at h ⊢
  unfold erase_stroke_at
  dsimp only
  exact eraseLoop_preserves pos _ c.strokes c.stroke_cache c.command_stack h

/-- `undo` preserves the alignment: both `AddStroke` and `RemoveStroke`
arms mutate stroke list and cache at the same position. -/
theorem cacheAligned_undo (c : InfiniteCanvas) (h : CacheAligned c) :
    CacheAligned (undo c) := by
  unfold CacheAligned at h ⊢
  unfold undo popUndo
  rcases hstack : c.command_stack.undo_stack with _ | ⟨cmd, rest⟩
  · exact h
  · cases cmd with
    | AddStroke s =>
      simp only [List.head?_cons, List.tail_cons]
      rcases hfind : findStroke c.strokes s with _ | idx
      · exact h
      · exact forall₂_eraseIdx idx h
    | RemoveStroke s =>
      exact List.rel_append h
        (List.forall₂_cons.mpr ⟨Or.inl rfl, List.Forall₂.nil⟩)

/-- `redo` preserves the alignment. -/
theorem cacheAligned_redo (c : InfiniteCanvas) (h : CacheAligned c) :
    CacheAligned (redo c) := by
  unfold CacheAligned at h ⊢
  unfold redo popRedo
  rcases hstack : c.command_stack.redo_stack with _ | ⟨cmd, rest⟩
  · exact h
  · cases cmd with
    | AddStroke s =>
      exact List.rel_append h
        (List.forall₂_cons.mpr ⟨Or.inl rfl, List.Forall₂.nil⟩)
    | RemoveStroke s =>
      simp only [List.head?_cons, List.tail_cons]
      rcases hfind : findStroke c.strokes s with _ | idx
      · exact h
      · exact forall₂_eraseIdx idx h

/-- C9 (confirmed): each of `finalize_stroke`, `erase_stroke_at`, `undo`
and `redo` performs matching stroke-list and cache mutations at the same
index, so each preserves the alignment invariant: one slot per stroke
(`stroke_cache.length = strokes.length`) with slot `i` corresponding to
`strokes[i]`. -/
theorem c9_cache_alignment (c : InfiniteCanvas) (pos : Vec2)
    (h : CacheAligned c) :
    (CacheAligned (finalize_stroke c) ∧
      (finalize_stroke c).stroke_cache.length
        = (finalize_stroke c).strokes.length) ∧
    (CacheAligned (erase_stroke_at c pos) ∧
      (erase_stroke_at c pos).stroke_cache.length
        = (erase_stroke_at c pos).strokes.length) ∧
    (CacheAligned (undo c) ∧
      (undo c).stroke_cache.length = (undo c).strokes.length) ∧
    (CacheAligned (redo c) ∧
      (redo c).stroke_cache.length = (redo c).strokes.length) :=
  ⟨⟨cacheAligned_finalize c h, (cacheAligned_finalize c h).length_eq.symm⟩,
   ⟨cacheAligned_erase c pos h, (cacheAligned_erase c pos h).length_eq.symm⟩,
   ⟨cacheAligned_undo c h, (cacheAligned_undo c h).length_eq.symm⟩,
   ⟨cacheAligned_redo c h, (cacheAligned_redo c h).length_eq.symm⟩⟩

/-- C9 witness: the preservation theorem on the fresh canvas (whose empty
stroke list and cache are trivially aligned) at a concrete position. -/
theorem c9_witness :
    CacheAligned InfiniteCanvas.new ∧
    ((CacheAligned (finalize_stroke InfiniteCanvas.new) ∧
      (finalize_stroke InfiniteCanvas.new).stroke_cache.length
        = (finalize_stroke InfiniteCanvas.new).strokes.length) ∧
    (CacheAligned (erase_stroke_at InfiniteCanvas.new (0, 0)) ∧
      (erase_stroke_at InfiniteCanvas.new (0, 0)).stroke_cache.length
        = (erase_stroke_at InfiniteCanvas.new (0, 0)).strokes.length) ∧
    (CacheAligned (undo InfiniteCanvas.new) ∧
      (undo InfiniteCanvas.new).stroke_cache.length
        = (undo InfiniteCanvas.new).strokes.length) ∧
    (CacheAligned (redo InfiniteCanvas.new) ∧
      (redo InfiniteCanvas.new).stroke_cache.length
        = (redo InfiniteCanvas.new).strokes.length)) :=
  ⟨List.Forall₂.nil,
   c9_cache_alignment InfiniteCanvas.new (0, 0) List.Forall₂.nil⟩

end



